import Mathlib

/-!
Verification of the code-block tokenizer and stylist of markdown_use.go.

The embedding models strings as lists of characters. The functions
splitByKeywords, classifyToken, isSymbol, isString and splitCodeContent
are translated directly from the Go source; the fixed separator set,
symbol set and keyword set are those of the source.
-/

namespace MarkdownUse

/-- The fixed separator set of the tokenizer (Go: separators = " \t\n().,;\x7b\x7d"). -/
def separators : List Char := [' ', '\t', '\n', '(', ')', '.', ',', ';', '{', '}']

/-- The fixed symbol set of the stylist (Go: symbols = "(),;\x7b\x7d"). -/
def symbols : List Char := ['(', ')', ',', ';', '{', '}']

/-- The fixed keyword set passed by splitCodeContent to splitByKeywords. -/
def keywords : List (List Char) := ["func".toList, "main".toList, "Println".toList]

/-- A token produced by the tokenizer: its text and whether it is a keyword. -/
structure Token where
  Text : List Char
  IsKeyword : Bool
deriving DecidableEq

/-- Go classifyToken: the token is a keyword iff it equals some member of the set. -/
def classifyToken (token : List Char) (kws : List (List Char)) : Token :=
  { Text := token, IsKeyword := kws.any (fun keyword => token == keyword) }

/-- Recursive core of splitByKeywords; the first list argument is the running buffer. -/
def splitByKeywordsAux (kws : List (List Char)) (token : List Char) :
    List Char → List Token
  | [] => if token = [] then [] else [classifyToken token kws]
  | r :: rest =>
    if separators.contains r then
      (if token = [] then [] else [classifyToken token kws]) ++
        ({ Text := [r], IsKeyword := false } : Token) :: splitByKeywordsAux kws [] rest
    else
      splitByKeywordsAux kws (token ++ [r]) rest

/-- Go splitByKeywords: split content on separators, keeping separators as tokens. -/
def splitByKeywords (content : List Char) (kws : List (List Char)) : List Token :=
  splitByKeywordsAux kws [] content

/-- Go isSymbol: a one-character text whose character is in the symbol set. -/
def isSymbol (text : List Char) : Bool :=
  text.length == 1 && symbols.contains (text.headD ' ')

/-- Go strings.HasPrefix specialised to a one-character pattern. -/
def startsWith (text : List Char) (c : Char) : Bool :=
  match text with
  | [] => false
  | x :: _ => x == c

/-- Go strings.HasSuffix specialised to a one-character pattern. -/
def endsWith (text : List Char) (c : Char) : Bool :=
  match text.getLast? with
  | none => false
  | some x => x == c

/-- Go isString: the text begins and ends with a double quote. -/
def isString (text : List Char) : Bool :=
  startsWith text '"' && endsWith text '"'

/-- An NRGBA color value (image/color.NRGBA). -/
structure NRGBA where
  r : Nat
  g : Nat
  b : Nat
  a : Nat
deriving DecidableEq

/-- The fixed symbol color of the stylist (red, #FF0000). -/
def symbolColor : NRGBA := ⟨0xFF, 0x00, 0x00, 0xFF⟩

/-- The fixed string color of the stylist (pink, #FF69B4). -/
def stringColor : NRGBA := ⟨0xFF, 0x69, 0xB4, 0xFF⟩

/-- The palette fields of the material theme read by the stylist. -/
structure Theme where
  ContrastBg : NRGBA
  Fg : NRGBA
deriving DecidableEq

/-- A rich-text span style: color and content plus the inherited attributes. -/
structure SpanStyle where
  Font : Nat
  Size : Nat
  Color : NRGBA
  Content : List Char
  Interactive : Bool
  Metadata : List (List Char × List Char)
deriving DecidableEq

/-- Go splitCodeContent: tokenize the content of a code span and color each part,
checking keyword, then symbol, then string, then falling back to the default. -/
def splitCodeContent (span : SpanStyle) (th : Theme) : List SpanStyle :=
  let parts := splitByKeywords span.Content keywords
  parts.map (fun part =>
    let ns := span
    let ns :=
      if part.IsKeyword then { ns with Color := th.ContrastBg }
      else if isSymbol part.Text then { ns with Color := symbolColor }
      else if isString part.Text then { ns with Color := stringColor }
      else { ns with Color := th.Fg }
    { ns with Content := part.Text })

/-! Helper lemmas -/

theorem splitByKeywordsAux_flatten (kws : List (List Char)) (cs : List Char) :
    ∀ token : List Char,
      ((splitByKeywordsAux kws token cs).map Token.Text).flatten = token ++ cs := by
  induction cs with
  | nil =>
    intro token
    by_cases h : token = [] <;> simp [splitByKeywordsAux, h, classifyToken]
  | cons r rest ih =>
    intro token
    by_cases hs : r ∈ separators
    · by_cases h : token = [] <;>
        simp [splitByKeywordsAux, hs, h, classifyToken, ih]
    · simp [splitByKeywordsAux, hs, ih (token ++ [r])]

/-! Theorems for the claims -/

/-- C1: concatenating, in order, the Text fields of all tokens returned by
splitByKeywords (with its fixed separator set) yields the original input. -/
theorem splitByKeywords_lossless (content : List Char) (kws : List (List Char)) :
    ((splitByKeywords content kws).map Token.Text).flatten = content := by
  simpa using splitByKeywordsAux_flatten kws content []

/-- C2: with the fixed keyword set, classifyToken flags a token as a keyword
iff it is exactly equal to one of "func", "main", "Println". -/
theorem classifyToken_keyword_iff (t : List Char) :
    (classifyToken t keywords).IsKeyword = true ↔
      t = "func".toList ∨ t = "main".toList ∨ t = "Println".toList := by
  simp [classifyToken, keywords]

theorem splitCodeContent_eq_map (span : SpanStyle) (th : Theme) :
    splitCodeContent span th =
      (splitByKeywords span.Content keywords).map (fun part =>
        { span with
            Color :=
              if part.IsKeyword then th.ContrastBg
              else if isSymbol part.Text then symbolColor
              else if isString part.Text then stringColor
              else th.Fg,
            Content := part.Text }) := by
  simp only [splitCodeContent]
  apply List.map_congr_left
  intro part _
  split_ifs <;> rfl

theorem splitCodeContent_length (span : SpanStyle) (th : Theme) :
    (splitCodeContent span th).length = (splitByKeywords span.Content keywords).length := by
  rw [splitCodeContent_eq_map, List.length_map]

theorem splitCodeContent_get_spec (span : SpanStyle) (th : Theme) (i : Nat)
    (hi : i < (splitByKeywords span.Content keywords).length) :
    ∃ hj : i < (splitCodeContent span th).length,
      (splitCodeContent span th).get ⟨i, hj⟩ =
        { span with
            Color :=
              if ((splitByKeywords span.Content keywords).get ⟨i, hi⟩).IsKeyword then
                th.ContrastBg
              else if isSymbol ((splitByKeywords span.Content keywords).get ⟨i, hi⟩).Text then
                symbolColor
              else if isString ((splitByKeywords span.Content keywords).get ⟨i, hi⟩).Text then
                stringColor
              else th.Fg,
            Content := ((splitByKeywords span.Content keywords).get ⟨i, hi⟩).Text } := by
  refine ⟨by rw [splitCodeContent_length]; exact hi, ?_⟩
  simp only [splitCodeContent_eq_map, List.get_eq_getElem, List.getElem_map]

theorem classifyToken_keyword_mem (token : List Char) (kws : List (List Char))
    (hk : (classifyToken token kws).IsKeyword = true) : token ∈ kws := by
  simpa [classifyToken] using hk

theorem splitByKeywordsAux_keyword_mem (kws : List (List Char)) (cs : List Char) :
    ∀ token t, t ∈ splitByKeywordsAux kws token cs → t.IsKeyword = true →
      t.Text ∈ kws := by
  induction cs with
  | nil =>
    intro token t ht hk
    by_cases h : token = []
    · simp [splitByKeywordsAux, h] at ht
    · simp [splitByKeywordsAux, h] at ht
      subst ht
      exact classifyToken_keyword_mem token kws hk
  | cons r rest ih =>
    intro token t ht hk
    by_cases hs : r ∈ separators
    · by_cases h : token = []
      · simp [splitByKeywordsAux, hs, h] at ht
        rcases ht with ht | ht
        · subst ht; simp at hk
        · exact ih [] t ht hk
      · simp [splitByKeywordsAux, hs, h] at ht
        rcases ht with ht | ht | ht
        · subst ht
          exact classifyToken_keyword_mem token kws hk
        · subst ht; simp at hk
        · exact ih [] t ht hk
    · simp [splitByKeywordsAux, hs] at ht
      exact ih (token ++ [r]) t ht hk

/-- C3: the stylist checks keyword, then symbol, then string, then default, and
assigns the corresponding single color; a keyword-flagged token always gets the
accent (contrast) color, and no keyword of the fixed set is a one-character
symbol. -/
theorem splitCodeContent_precedence (span : SpanStyle) (th : Theme) (i : Nat)
    (hi : i < (splitByKeywords span.Content keywords).length) :
    (∃ hj : i < (splitCodeContent span th).length,
      ((splitCodeContent span th).get ⟨i, hj⟩).Color =
        (if ((splitByKeywords span.Content keywords).get ⟨i, hi⟩).IsKeyword then
          th.ContrastBg
         else if isSymbol ((splitByKeywords span.Content keywords).get ⟨i, hi⟩).Text then
          symbolColor
         else if isString ((splitByKeywords span.Content keywords).get ⟨i, hi⟩).Text then
          stringColor
         else th.Fg) ∧
      (((splitByKeywords span.Content keywords).get ⟨i, hi⟩).IsKeyword = true →
        ((splitCodeContent span th).get ⟨i, hj⟩).Color = th.ContrastBg)) ∧
    (∀ k ∈ keywords, isSymbol k = false) := by
  obtain ⟨hj, hget⟩ := splitCodeContent_get_spec span th i hi
  refine ⟨⟨hj, by rw [hget], ?_⟩, by decide⟩
  intro hk
  rw [hget]
  simp only [List.get_eq_getElem] at hk ⊢
  simp [hk]

/-- C4: a single-character token whose character is in the fixed symbol set and
which is not flagged as a keyword is assigned the fixed symbol color. -/
theorem symbol_token_color (span : SpanStyle) (th : Theme) (i : Nat) (c : Char)
    (hi : i < (splitByKeywords span.Content keywords).length)
    (hct : ((splitByKeywords span.Content keywords).get ⟨i, hi⟩).Text = [c])
    (hc : c ∈ symbols)
    (hkw : ((splitByKeywords span.Content keywords).get ⟨i, hi⟩).IsKeyword = false) :
    ∃ hj : i < (splitCodeContent span th).length,
      ((splitCodeContent span th).get ⟨i, hj⟩).Color = symbolColor := by
  obtain ⟨hj, hget⟩ := splitCodeContent_get_spec span th i hi
  refine ⟨hj, ?_⟩
  rw [hget]
  simp only [List.get_eq_getElem] at hkw hct ⊢
  simp [hkw, hct, isSymbol, hc]

/-- C5: a token of length at least two that begins and ends with a double quote
is assigned the fixed string color (such a token is never a keyword of the
fixed set nor a one-character symbol). -/
theorem string_token_color (span : SpanStyle) (th : Theme) (i : Nat)
    (hi : i < (splitByKeywords span.Content keywords).length)
    (hlen : 2 ≤ ((splitByKeywords span.Content keywords).get ⟨i, hi⟩).Text.length)
    (hpre : startsWith ((splitByKeywords span.Content keywords).get ⟨i, hi⟩).Text '"' = true)
    (hsuf : endsWith ((splitByKeywords span.Content keywords).get ⟨i, hi⟩).Text '"' = true) :
    ∃ hj : i < (splitCodeContent span th).length,
      ((splitCodeContent span th).get ⟨i, hj⟩).Color = stringColor := by
  obtain ⟨hj, hget⟩ := splitCodeContent_get_spec span th i hi
  refine ⟨hj, ?_⟩
  rw [hget]
  simp only [List.get_eq_getElem] at hlen hpre hsuf ⊢
  have hmem : (splitByKeywords span.Content keywords)[i] ∈
      splitByKeywords span.Content keywords := List.getElem_mem hi
  have hkw : (splitByKeywords span.Content keywords)[i].IsKeyword = false := by
    cases hkb : (splitByKeywords span.Content keywords)[i].IsKeyword
    · rfl
    · have hmemk := splitByKeywordsAux_keyword_mem keywords span.Content []
        ((splitByKeywords span.Content keywords)[i]) hmem hkb
      have hks : ∀ k ∈ keywords, startsWith k '"' = false := by decide
      have hfalse := hks _ hmemk
      rw [hpre] at hfalse
      exact Bool.noConfusion hfalse
  have h1 : (splitByKeywords span.Content keywords)[i].Text.length ≠ 1 := by
    omega
  have hsm : isSymbol (splitByKeywords span.Content keywords)[i].Text = false := by
    simp [isSymbol, h1]
  have hst : isString (splitByKeywords span.Content keywords)[i].Text = true := by
    simp [isString, hpre, hsuf]
  simp [hkw, hsm, hst]

/-! Concrete values used by the witness statements -/

/-- A concrete theme with distinct contrast and foreground colors. -/
def testTheme : Theme := ⟨⟨10, 20, 30, 40⟩, ⟨50, 60, 70, 80⟩⟩

/-- A concrete span whose content starts with a keyword. -/
def spanKw : SpanStyle := ⟨7, 16, ⟨1, 2, 3, 4⟩, "func main".toList, true, [(['k'], ['v'])]⟩

/-- A concrete span whose content starts with a symbol character. -/
def spanSym : SpanStyle := ⟨7, 16, ⟨1, 2, 3, 4⟩, "(x".toList, true, []⟩

/-- A concrete span whose content is a quoted string literal. -/
def spanStr : SpanStyle := ⟨7, 16, ⟨1, 2, 3, 4⟩, ['"', 'h', 'i', '"'], true, []⟩

theorem splitCodeContent_precedence_witness :
    0 < (splitByKeywords spanKw.Content keywords).length ∧
    (∃ hj : 0 < (splitCodeContent spanKw testTheme).length,
      ((splitCodeContent spanKw testTheme).get ⟨0, hj⟩).Color = testTheme.ContrastBg) ∧
    (∀ k ∈ keywords, isSymbol k = false) := by
  obtain ⟨⟨hj, hcol, himp⟩, hsym⟩ :=
    splitCodeContent_precedence spanKw testTheme 0 (by decide)
  exact ⟨by decide, ⟨hj, himp (by decide)⟩, hsym⟩

theorem symbol_token_color_witness :
    0 < (splitByKeywords spanSym.Content keywords).length ∧
    ((splitByKeywords spanSym.Content keywords).get ⟨0, by decide⟩).Text = ['('] ∧
    '(' ∈ symbols ∧
    ((splitByKeywords spanSym.Content keywords).get ⟨0, by decide⟩).IsKeyword = false ∧
    (∃ hj : 0 < (splitCodeContent spanSym testTheme).length,
      ((splitCodeContent spanSym testTheme).get ⟨0, hj⟩).Color = symbolColor) :=
  ⟨by decide, by decide, by decide, by decide,
    symbol_token_color spanSym testTheme 0 '(' (by decide) (by decide) (by decide) (by decide)⟩

theorem string_token_color_witness :
    0 < (splitByKeywords spanStr.Content keywords).length ∧
    2 ≤ ((splitByKeywords spanStr.Content keywords).get ⟨0, by decide⟩).Text.length ∧
    startsWith ((splitByKeywords spanStr.Content keywords).get ⟨0, by decide⟩).Text '"' = true ∧
    endsWith ((splitByKeywords spanStr.Content keywords).get ⟨0, by decide⟩).Text '"' = true ∧
    (∃ hj : 0 < (splitCodeContent spanStr testTheme).length,
      ((splitCodeContent spanStr testTheme).get ⟨0, hj⟩).Color = stringColor) :=
  ⟨by decide, by decide, by decide, by decide,
    string_token_color spanStr testTheme 0 (by decide) (by decide) (by decide) (by decide)⟩

/-- C6: the example input "func main() \x7b" tokenizes to the expected seven tokens
with exactly "func" and "main" flagged as keywords, and the styled output gives
"func" and "main" the accent color, the three symbols the symbol color, and the
two spaces the default color. -/
theorem example_func_main (span : SpanStyle) (th : Theme) :
    splitByKeywords "func main() \x7b".toList keywords =
      [⟨"func".toList, true⟩, ⟨[' '], false⟩, ⟨"main".toList, true⟩,
       ⟨['('], false⟩, ⟨[')'], false⟩, ⟨[' '], false⟩, ⟨['{'], false⟩] ∧
    splitCodeContent { span with Content := "func main() \x7b".toList } th =
      [{ span with Color := th.ContrastBg, Content := "func".toList },
       { span with Color := th.Fg, Content := [' '] },
       { span with Color := th.ContrastBg, Content := "main".toList },
       { span with Color := symbolColor, Content := ['('] },
       { span with Color := symbolColor, Content := [')'] },
       { span with Color := th.Fg, Content := [' '] },
       { span with Color := symbolColor, Content := ['{'] }] :=
  ⟨by decide, by rfl⟩

/-- C7: splitCodeContent yields one styled segment per token, in token order;
the segment Content is the token Text, and the Font, Size, Interactive and
Metadata attributes are inherited unchanged from the enclosing span. -/
theorem splitCodeContent_frame (span : SpanStyle) (th : Theme) (i : Nat)
    (hi : i < (splitByKeywords span.Content keywords).length) :
    (splitCodeContent span th).length = (splitByKeywords span.Content keywords).length ∧
    ∃ hj : i < (splitCodeContent span th).length,
      ((splitCodeContent span th).get ⟨i, hj⟩).Content =
          ((splitByKeywords span.Content keywords).get ⟨i, hi⟩).Text ∧
        ((splitCodeContent span th).get ⟨i, hj⟩).Font = span.Font ∧
        ((splitCodeContent span th).get ⟨i, hj⟩).Size = span.Size ∧
        ((splitCodeContent span th).get ⟨i, hj⟩).Interactive = span.Interactive ∧
        ((splitCodeContent span th).get ⟨i, hj⟩).Metadata = span.Metadata := by
  obtain ⟨hj, hget⟩ := splitCodeContent_get_spec span th i hi
  exact ⟨splitCodeContent_length span th, hj, by rw [hget], by rw [hget], by rw [hget],
    by rw [hget], by rw [hget]⟩

theorem splitCodeContent_frame_witness :
    0 < (splitByKeywords spanKw.Content keywords).length ∧
    ((splitCodeContent spanKw testTheme).length =
        (splitByKeywords spanKw.Content keywords).length ∧
      ∃ hj : 0 < (splitCodeContent spanKw testTheme).length,
        ((splitCodeContent spanKw testTheme).get ⟨0, hj⟩).Content =
            ((splitByKeywords spanKw.Content keywords).get ⟨0, by decide⟩).Text ∧
          ((splitCodeContent spanKw testTheme).get ⟨0, hj⟩).Font = spanKw.Font ∧
          ((splitCodeContent spanKw testTheme).get ⟨0, hj⟩).Size = spanKw.Size ∧
          ((splitCodeContent spanKw testTheme).get ⟨0, hj⟩).Interactive = spanKw.Interactive ∧
          ((splitCodeContent spanKw testTheme).get ⟨0, hj⟩).Metadata = spanKw.Metadata) :=
  ⟨by decide, splitCodeContent_frame spanKw testTheme 0 (by decide)⟩

/-! Token-shape predicates used to state the tokenizer invariant -/

/-- A token that is a single character from the separator set. -/
def sepToken (t : Token) : Bool :=
  match t.Text with
  | [c] => separators.contains c
  | _ => false

/-- A token that is a nonempty run of characters none of which is a separator. -/
def runToken (t : Token) : Bool :=
  !t.Text.isEmpty && t.Text.all (fun c => !separators.contains c)

/-- No two adjacent tokens are both runs, so every run token is maximal. -/
def noAdjacentRuns : List Token → Bool
  | t1 :: t2 :: rest => !(runToken t1 && runToken t2) && noAdjacentRuns (t2 :: rest)
  | _ => true

theorem noAdjacentRuns_cons_of_not_run (t : Token) (l : List Token)
    (h : runToken t = false) (hl : noAdjacentRuns l = true) :
    noAdjacentRuns (t :: l) = true := by
  cases l with
  | nil => rfl
  | cons t2 rest => simp [noAdjacentRuns, h, hl]

theorem runToken_sep (c : Char) (hc : c ∈ separators) (b : Bool) :
    runToken ⟨[c], b⟩ = false := by
  simp [runToken, hc]

theorem splitByKeywordsAux_shape (kws : List (List Char)) (cs : List Char) :
    ∀ token : List Char, (∀ c ∈ token, c ∉ separators) →
      (∀ t ∈ splitByKeywordsAux kws token cs, sepToken t = true ∨ runToken t = true) ∧
      noAdjacentRuns (splitByKeywordsAux kws token cs) = true := by
  induction cs with
  | nil =>
    intro token htok
    by_cases h : token = []
    · simp [splitByKeywordsAux, h, noAdjacentRuns]
    · refine ⟨?_, ?_⟩
      · intro t ht
        simp [splitByKeywordsAux, h] at ht
        subst ht
        right
        simpa [runToken, classifyToken, h] using htok
      · simp [splitByKeywordsAux, h, noAdjacentRuns]
  | cons r rest ih =>
    intro token htok
    by_cases hs : r ∈ separators
    · have ihr := ih [] (by simp)
      by_cases h : token = []
      · have heq : splitByKeywordsAux kws token (r :: rest) =
            ({ Text := [r], IsKeyword := false } : Token) ::
              splitByKeywordsAux kws [] rest := by
          simp [splitByKeywordsAux, hs, h]
        rw [heq]
        refine ⟨?_, noAdjacentRuns_cons_of_not_run _ _ (runToken_sep r hs false) ihr.2⟩
        intro t ht
        rcases List.mem_cons.mp ht with ht | ht
        · subst ht; left; simp [sepToken, hs]
        · exact ihr.1 t ht
      · have heq : splitByKeywordsAux kws token (r :: rest) =
            classifyToken token kws ::
              ({ Text := [r], IsKeyword := false } : Token) ::
                splitByKeywordsAux kws [] rest := by
          simp [splitByKeywordsAux, hs, h]
        rw [heq]
        have htail : noAdjacentRuns (({ Text := [r], IsKeyword := false } : Token) ::
            splitByKeywordsAux kws [] rest) = true :=
          noAdjacentRuns_cons_of_not_run _ _ (runToken_sep r hs false) ihr.2
        refine ⟨?_, ?_⟩
        · intro t ht
          rcases List.mem_cons.mp ht with ht | ht
          · subst ht; right; simpa [runToken, classifyToken, h] using htok
          rcases List.mem_cons.mp ht with ht | ht
          · subst ht; left; simp [sepToken, hs]
          · exact ihr.1 t ht
        · simp [noAdjacentRuns, runToken_sep r hs false, htail]
    · have heq : splitByKeywordsAux kws token (r :: rest) =
          splitByKeywordsAux kws (token ++ [r]) rest := by
        simp [splitByKeywordsAux, hs]
      rw [heq]
      refine ih (token ++ [r]) fun x hx => ?_
      rcases List.mem_append.mp hx with hx | hx
      · exact htok x hx
      · rw [List.mem_singleton.mp hx]
        exact hs

/-- C8: every token emitted by splitByKeywords is a single separator character
or a nonempty run of non-separator characters; run tokens are maximal (no two
adjacent tokens are both runs, so each separator occurrence is its own token
and an all-separator input yields only separator tokens); the empty input
yields the empty sequence. -/
theorem splitByKeywords_token_shape (content : List Char) (kws : List (List Char)) :
    (∀ t ∈ splitByKeywords content kws, sepToken t = true ∨ runToken t = true) ∧
    noAdjacentRuns (splitByKeywords content kws) = true ∧
    splitByKeywords [] kws = [] := by
  have h := splitByKeywordsAux_shape kws content [] (by simp)
  exact ⟨h.1, h.2, rfl⟩

/-- C9: a double quote is not a separator, so the tokenizer can emit the
one-character token consisting of a single double quote; isString accepts that
token, and since it is neither a keyword nor a symbol the stylist gives it the
string color. -/
theorem quote_token_string_color (span : SpanStyle) (th : Theme) :
    separators.contains '"' = false ∧ isString ['"'] = true ∧
    splitByKeywords ['"'] keywords = [{ Text := ['"'], IsKeyword := false }] ∧
    splitCodeContent { span with Content := ['"'] } th =
      [{ span with Color := stringColor, Content := ['"'] }] :=
  ⟨by decide, by decide, by decide, by rfl⟩

theorem splitByKeywordsAux_sep_mem (kws : List (List Char)) (c : Char)
    (hc : c ∈ separators) (cs : List Char) :
    ∀ token : List Char, c ∈ cs →
      ({ Text := [c], IsKeyword := false } : Token) ∈ splitByKeywordsAux kws token cs := by
  induction cs with
  | nil =>
    intro token h
    simp at h
  | cons r rest ih =>
    intro token h
    by_cases hs : r ∈ separators
    · by_cases htok : token = []
      · have heq : splitByKeywordsAux kws token (r :: rest) =
            ({ Text := [r], IsKeyword := false } : Token) ::
              splitByKeywordsAux kws [] rest := by
          simp [splitByKeywordsAux, hs, htok]
        rw [heq]
        rcases List.mem_cons.mp h with hcr | h2
        · subst hcr; exact List.mem_cons_self _ _
        · exact List.mem_cons_of_mem _ (ih [] h2)
      · have heq : splitByKeywordsAux kws token (r :: rest) =
            classifyToken token kws ::
              ({ Text := [r], IsKeyword := false } : Token) ::
                splitByKeywordsAux kws [] rest := by
          simp [splitByKeywordsAux, hs, htok]
        rw [heq]
        rcases List.mem_cons.mp h with hcr | h2
        · subst hcr
          exact List.mem_cons_of_mem _ (List.mem_cons_self _ _)
        · exact List.mem_cons_of_mem _ (List.mem_cons_of_mem _ (ih [] h2))
    · have hcr : c ∈ rest := by
        rcases List.mem_cons.mp h with hcr | h2
        · subst hcr; exact absurd hc hs
        · exact h2
      have heq : splitByKeywordsAux kws token (r :: rest) =
          splitByKeywordsAux kws (token ++ [r]) rest := by
        simp [splitByKeywordsAux, hs]
      rw [heq]
      exact ih (token ++ [r]) hcr

/-- C10: the period is a separator but not a symbol; any input containing a
period yields the period as its own non-keyword token, and the stylist gives
that token the default foreground color rather than the symbol color. -/
theorem period_default_color (content : List Char) (span : SpanStyle) (th : Theme)
    (h : '.' ∈ content) :
    separators.contains '.' = true ∧ symbols.contains '.' = false ∧
    ({ Text := ['.'], IsKeyword := false } : Token) ∈ splitByKeywords content keywords ∧
    { span with Color := th.Fg, Content := ['.'] } ∈
      splitCodeContent { span with Content := content } th := by
  have hmem := splitByKeywordsAux_sep_mem keywords '.' (by decide) content [] h
  refine ⟨by decide, by decide, hmem, ?_⟩
  rw [splitCodeContent_eq_map]
  exact List.mem_map.mpr ⟨{ Text := ['.'], IsKeyword := false }, hmem, by rfl⟩

theorem period_default_color_witness :
    ('.' ∈ "a.b".toList) ∧
    (separators.contains '.' = true ∧ symbols.contains '.' = false ∧
     ({ Text := ['.'], IsKeyword := false } : Token) ∈ splitByKeywords "a.b".toList keywords ∧
     { spanKw with Color := testTheme.Fg, Content := ['.'] } ∈
       splitCodeContent { spanKw with Content := "a.b".toList } testTheme) :=
  ⟨by decide, period_default_color "a.b".toList spanKw testTheme (by decide)⟩

end MarkdownUse
